import Mathlib

/-!
Verification development for the Day 05 range-remapping engine
(`src/bin/day05.rs` of the `aoc2023` repository).

The Rust code is shallowly embedded: `u64` is modelled by `Nat` (the spec
guarantees `src + rng` and `dst + rng` never overflow 64 bits, and every
subtraction in the source is guarded by the branch condition under which it
is executed, so `Nat` truncated subtraction agrees with the `u64` value);
`Vec<T>` by `List T`; `Range<u64>` by the `URange` structure below;
functions that can `panic!` are annotated with comments at the branch where
the source would abort.
-/

/-- Model of Rust `Range<u64>`: the half-open interval `[start, stop)`.
The exclusive upper bound is called `stop` because `end` is a Lean keyword. -/
structure URange where
  start : Nat
  stop : Nat
deriving DecidableEq, Repr

/-- Membership of an integer in a half-open interval. -/
def URange.contains (r : URange) (v : Nat) : Prop :=
  r.start ≤ v ∧ v < r.stop

instance (r : URange) (v : Nat) : Decidable (r.contains v) :=
  inferInstanceAs (Decidable (_ ∧ _))

/-- Length `stop - start` of a half-open interval. -/
def URange.len (r : URange) : Nat := r.stop - r.start

/-- Sum of the lengths of a list of intervals. -/
def sumLen (l : List URange) : Nat := (l.map URange.len).sum

/-- Model of the Rust struct `Translation { src, dst, rng }` (all `u64`). -/
structure Translation where
  src : Nat
  dst : Nat
  rng : Nat
deriving DecidableEq, Repr

/-- `Translation::in_range(value)`: `value >= self.src && value < self.src + self.rng`. -/
def Translation.in_range (t : Translation) (value : Nat) : Bool :=
  decide (t.src ≤ value) && decide (value < t.src + t.rng)

/-- `Translation::translate(value)`. -/
def Translation.translate (t : Translation) (value : Nat) : Nat :=
  if t.in_range value then t.dst + (value - t.src) else value

/-- `Translation::start()` (inclusive start of the source interval). -/
def Translation.start (t : Translation) : Nat := t.src

/-- `Translation::end()` (exclusive end of the source interval).
Called `stop` because `end` is a Lean keyword. -/
def Translation.stop (t : Translation) : Nat := t.src + t.rng

/-- `Translation::range()`: the source interval as a `Range`. -/
def Translation.range (t : Translation) : URange := ⟨t.src, t.src + t.rng⟩

/-- `Translation::out_range()`: the destination interval as a `Range`. -/
def Translation.out_range (t : Translation) : URange := ⟨t.dst, t.dst + t.rng⟩

/-- `Translation::snip_left(amount)`: advances `src` and `dst`, shrinks `rng`.
The source panics when `amount > rng`; every call site in the source is
guarded so that `amount ≤ rng`, where `Nat` subtraction agrees with `u64`. -/
def Translation.snip_left (t : Translation) (amount : Nat) : Translation :=
  { t with src := t.src + amount, dst := t.dst + amount, rng := t.rng - amount }

/-- `Translation::snip_right(amount)`: shrinks `rng` without moving starts.
Same panic proviso as `snip_left`. -/
def Translation.snip_right (t : Translation) (amount : Nat) : Translation :=
  { t with rng := t.rng - amount }

/-- `trans_sub_src(a, b)`: the parts of `a` whose source interval survives
subtracting `b`'s source interval, translated branch-for-branch from the
Rust source (including its strict `>` / `<` comparisons in the
"b is outside of a" test). -/
def trans_sub_src (a b : Translation) : List Translation :=
  if b.start ≤ a.start ∧ b.stop ≥ a.stop then []
  else if b.start > a.stop ∨ b.stop < a.start then [a]
  else
    (if b.start > a.start ∧ b.start < a.stop ∧ b.stop ≥ a.stop then
      [a.snip_right (a.stop - b.start)]
    else []) ++
    (if b.start ≤ a.start ∧ b.stop > a.start ∧ b.stop < a.stop then
      [a.snip_left (b.stop - a.start)]
    else []) ++
    (if b.start > a.start ∧ b.stop < a.stop then
      [a.snip_right (a.stop - b.start), a.snip_left (b.stop - a.start)]
    else [])

/-- `trans_sub_dst(a, b)`: like `trans_sub_src` but comparing `b`'s source
interval against `a`'s destination interval `ao = a.out_range()`. -/
def trans_sub_dst (a b : Translation) : List Translation :=
  let ao := a.out_range
  if b.start ≤ ao.start ∧ b.stop ≥ ao.stop then []
  else if b.start > ao.stop ∨ b.stop ≤ ao.start then [a]
  else
    (if b.start > ao.start ∧ b.start < ao.stop ∧ b.stop ≥ ao.stop then
      [a.snip_right (ao.stop - b.start)]
    else []) ++
    (if b.start ≤ ao.start ∧ b.stop > ao.start ∧ b.stop < ao.stop then
      [a.snip_left (b.stop - ao.start)]
    else []) ++
    (if b.start > ao.start ∧ b.stop < ao.stop then
      [a.snip_right (ao.stop - b.start), a.snip_left (b.stop - ao.start)]
    else [])

/-- `trans_shift_overlaps(a, b)`: the translation(s) re-routing the part of
`a`'s output that falls into `b`'s source through `b`. -/
def trans_shift_overlaps (a b : Translation) : List Translation :=
  let ao := a.out_range
  if b.start ≤ ao.start ∧ b.stop ≥ ao.stop then
    let t := (b.snip_left (ao.start - b.start)).snip_right (b.stop - ao.stop)
    [{ t with src := a.src }]
  else if b.start > ao.stop ∨ b.stop < ao.start then []
  else
    (if b.start > ao.start ∧ b.start < ao.stop ∧ b.stop ≥ ao.stop then
      let t := b.snip_right (b.stop - ao.stop)
      [{ t with src := a.src + (b.start - ao.start) }]
    else []) ++
    (if b.start ≤ ao.start ∧ b.stop > ao.start ∧ b.stop < ao.stop then
      let t := b.snip_left (ao.start - b.start)
      [{ t with src := a.src }]
    else []) ++
    (if b.start > ao.start ∧ b.stop < ao.stop then
      [{ b with src := a.src + (b.start - ao.start) }]
    else [])

/-- `trans_vec_sub_src(a, b)`: fold every `bt ∈ b` over every surviving
piece of every element of `a`. -/
def trans_vec_sub_src (a b : List Translation) : List Translation :=
  b.foldl (fun out bt => out.flatMap fun ot => trans_sub_src ot bt) a

/-- `trans_vec_sub_dst(a, b)`. -/
def trans_vec_sub_dst (a b : List Translation) : List Translation :=
  b.foldl (fun out bt => out.flatMap fun ot => trans_sub_dst ot bt) a

/-- `trans_vec_shift_overlaps(a, b)`: outer loop over `b`, inner over `a`. -/
def trans_vec_shift_overlaps (a b : List Translation) : List Translation :=
  b.flatMap fun bt => a.flatMap fun ta => trans_shift_overlaps ta bt

/-- `Translation::translate_range(r)`, branch-for-branch from the source:
the cases are tested in the order 2a, 2b, 3a, 3b, 1.  The final `else`
corresponds to `panic!("translate_range: unhandled case")`; the theorem
`translate_range_total` below proves that branch unreachable (one of the
five case conditions always holds), so the value returned there is
irrelevant. -/
def Translation.translate_range (t : Translation) (r : URange) :
    List URange × List URange :=
  if t.start ≥ r.start ∧ t.stop ≤ r.stop then
    ([⟨t.translate t.start, t.translate (t.stop - 1) + 1⟩],
     (if r.start < t.start then [⟨r.start, t.start⟩] else []) ++
     (if r.stop > t.stop then [⟨t.stop, r.stop⟩] else []))
  else if r.start ≥ t.start ∧ r.stop ≤ t.stop then
    ([⟨t.translate r.start, t.translate r.stop⟩], [])
  else if r.start < t.start ∧ r.stop > t.start ∧ r.stop < t.stop then
    ([⟨t.translate t.start, t.translate (r.stop - 1) + 1⟩], [⟨r.start, t.start⟩])
  else if r.start ≥ t.start ∧ r.start ≤ t.stop ∧ r.stop > t.stop then
    ([⟨t.translate r.start, t.translate t.stop⟩], [⟨t.stop, r.stop⟩])
  else if t.stop ≤ r.start ∨ t.start ≥ r.stop then
    ([], [r])
  else
    ([], [r])

/-- Model of the Rust struct `Map { translations: Vec<Translation> }`. -/
structure Map where
  translations : List Translation
deriving DecidableEq, Repr

/-- `Map::translate(value)`: the first translation whose source contains
`value` wins, otherwise identity. -/
def Map.translate (m : Map) (value : Nat) : Nat :=
  match m.translations.find? fun t => t.in_range value with
  | some t => t.translate value
  | none => value

/-- The distinct source ranges of a Map, i.e. the key set of the
`HashMap<Range<u64>, Range<u64>>` built by `Map::range_map` (a `HashMap`
keeps one entry per key, so duplicate source ranges collapse; iteration
order is irrelevant to the symmetric pairwise check below). -/
def Map.range_keys (m : Map) : List URange :=
  (m.translations.map Translation.range).dedup

/-- `Map::detect_overlaps()` panics iff this is `true`: there are two
distinct keys `k ≠ k2` of the range map with
`k.start < k2.end && k.end > k2.start`. -/
def Map.detect_overlaps_panics (m : Map) : Bool :=
  let keys := m.range_keys
  keys.any fun k => keys.any fun k2 =>
    decide (k ≠ k2 ∧ k.start < k2.stop ∧ k2.start < k.stop)

/-- `Map::add_adapt_translations(ts)`: the three phases of composition. -/
def Map.add_adapt_translations (m : Map) (ts : List Translation) : Map :=
  let new_inputs := trans_vec_sub_src ts m.translations
  let existing_with_holes := trans_vec_sub_dst m.translations ts
  let new_shifted := trans_vec_shift_overlaps m.translations ts
  ⟨new_inputs ++ existing_with_holes ++ new_shifted⟩

/-- `Map::add_map(other)` (the source takes `&mut other` but only reads it). -/
def Map.add_map (m other : Map) : Map :=
  m.add_adapt_translations other.translations

/-- Insert an interval into a list sorted by `start`, after all entries
whose `start` is strictly smaller and before entries with equal `start`. -/
def insertByStart (x : URange) : List URange → List URange
  | [] => [x]
  | y :: ys => if y.start < x.start then y :: insertByStart x ys else x :: y :: ys

/-- Stable insertion sort by `start`; extensionally equal to the source's
`ranges.sort_by(|a, b| a.start.cmp(&b.start))`, which is a stable sort by
`start` (a stable sort by a fixed key is unique as a function). -/
def sortByStart : List URange → List URange
  | [] => []
  | x :: xs => insertByStart x (sortByStart xs)

/-- The loop body of `Map::simplify_ranges` after sorting: `current` is the
running range, the branches are tested in source order (current fully
contained in next → skip next; current.end ≥ next.start → merge to
`current.start..next.end`; otherwise emit current and restart from next). -/
def simplify_go (current : URange) : List URange → List URange
  | [] => [current]
  | r :: rs =>
    if current.start ≥ r.start ∧ current.stop ≤ r.stop then
      simplify_go current rs
    else if current.stop ≥ r.start then
      simplify_go ⟨current.start, r.stop⟩ rs
    else
      current :: simplify_go r rs

/-- `Map::simplify_ranges(ranges)`.  On the empty list the source would
panic (it indexes `ranges[0]`); `translate_range`, its only caller, never
passes an empty list. -/
def Map.simplify_ranges (ranges : List URange) : List URange :=
  if ranges.length = 1 then ranges
  else
    match sortByStart ranges with
    | [] => []
    | c :: rest => simplify_go c rest

/-- One iteration of the loop in `Map::translate_range`: feed every
remaining range through `t.translate_range`, append the translated pieces
to the output and keep the untranslated pieces as the new remainder. -/
def mapTRstep (t : Translation) (acc : List URange × List URange) :
    List URange × List URange :=
  let pieces := acc.2.map fun rr => t.translate_range rr
  (acc.1 ++ (pieces.map Prod.fst).flatten, (pieces.map Prod.snd).flatten)

/-- The output and remainder accumulated by `Map::translate_range` before
the final fallback and simplification. -/
def Map.translate_range_raw (m : Map) (r : URange) : List URange × List URange :=
  m.translations.foldl (fun acc t => mapTRstep t acc) ([], [r])

/-- `Map::translate_range(r)`: run the loop, append the remainder, apply
the empty-output fallback, then simplify. -/
def Map.translate_range (m : Map) (r : URange) : List URange :=
  let p := m.translate_range_raw r
  let output := p.1 ++ p.2
  let output := if output.isEmpty then [r] else output
  Map.simplify_ranges output

/-- `Map::lowest_in_ranges(ranges)`: minimum start over all output
intervals.  The source calls `.min().unwrap()`; `none` models the panic on
an empty collection, which cannot happen for nonempty `ranges`. -/
def Map.lowest_in_ranges (m : Map) (ranges : List URange) : Option Nat :=
  (((ranges.map fun r => m.translate_range r).flatten).map URange.start).min?

/-! ### Parsing (`FromStr` impls, `parse_input`) and the drivers.

Rust string primitives do not exist in Lean, so the splitting helpers are
implemented over `List Char` (`String.data`); `splitOnS` models
`str::split(pat)` (non-overlapping left-to-right matches, empty pieces
kept), `splitWsCL` models `str::split_whitespace`, `parseNatCL` models
`str::parse::<u64>().unwrap()` on all-digit tokens (on other tokens the
source panics; this model is only applied to valid inputs). -/

/-- Is the first list a leading segment of the second? -/
def leadsWith : List Char → List Char → Bool
  | [], _ => true
  | _ :: _, [] => false
  | p :: ps, c :: cs => p == c && leadsWith ps cs

/-- Fuel-driven splitter over char lists; `fuel` is the input length plus
one, so the fuel never runs out. -/
def splitOnCL (sep : List Char) : Nat → List Char → List Char → List (List Char)
  | 0, cur, _ => [cur.reverse]
  | _ + 1, cur, [] => [cur.reverse]
  | fuel + 1, cur, c :: cs =>
    if leadsWith sep (c :: cs) then
      cur.reverse :: splitOnCL sep fuel [] ((c :: cs).drop sep.length)
    else
      splitOnCL sep fuel (c :: cur) cs

/-- Model of Rust `str::split(sep)` collected into a vector. -/
def splitOnS (s sep : String) : List String :=
  (splitOnCL sep.data (s.data.length + 1) [] s.data).map fun l => String.mk l

/-- Model of Rust `str::replace(pat, repl)`. -/
def replaceAll (s pat repl : String) : String :=
  String.mk (((splitOnS s pat).map String.data).intersperse repl.data).flatten

/-- Model of Rust `str::contains(pat)`. -/
def strContains (s pat : String) : Bool :=
  decide ((splitOnS s pat).length ≠ 1)

/-- Model of Rust `str::split_whitespace` (empty tokens skipped). -/
def splitWsCL : List Char → List Char → List (List Char)
  | cur, [] => if cur.isEmpty then [] else [cur.reverse]
  | cur, c :: cs =>
    if c.isWhitespace then
      if cur.isEmpty then splitWsCL [] cs else cur.reverse :: splitWsCL [] cs
    else
      splitWsCL (c :: cur) cs

/-- Decimal value of an all-digit token (`str::parse::<u64>().unwrap()`). -/
def parseNatCL (s : List Char) : Nat :=
  s.foldl (fun n c => n * 10 + (c.toNat - 48)) 0

/-- `impl FromStr for Translation`: three whitespace-separated integers in
the order `dst src rng`. -/
def Translation.from_str (s : String) : Translation :=
  let toks := splitWsCL [] s.data
  { dst := parseNatCL (toks.getD 0 [])
    src := parseNatCL (toks.getD 1 [])
    rng := parseNatCL (toks.getD 2 []) }

/-- `impl FromStr for Map`: every line not containing `map` is a
translation line. -/
def Map.from_str (s : String) : Map :=
  ⟨((splitOnS s "\n").filter fun l => !(strContains l "map")).map
      Translation.from_str⟩

/-- `parse_input`: paragraphs split on blank lines, first paragraph the
seeds line, the rest one Map each. -/
def parse_input (input : String) : List Nat × List Map :=
  let paragraphs := splitOnS input "\n\n"
  let seeds := (splitOnS (replaceAll (paragraphs.headD "") "seeds: " "") " ").map
    fun s => parseNatCL s.data
  (seeds, (paragraphs.drop 1).map Map.from_str)

/-- `seeds.chunks(2).map(|c| c[0]..c[0] + c[1])`.  On an odd-length seed
list the source would panic at `c[1]`; part-2 inputs have even length. -/
def chunkPairs : List Nat → List URange
  | a :: b :: rest => ⟨a, a + b⟩ :: chunkPairs rest
  | _ => []

/-- `solve(input)` (part 1): thread every seed through all maps, take the
minimum (`none` models `.min().unwrap()` on an empty seed list). -/
def solve (input : String) : Option Nat :=
  let p := parse_input input
  (p.1.map fun s => p.2.foldl (fun acc c => c.translate acc) s).min?

/-- `solve2(input)` (part 2, Strategy B): interval walk. -/
def solve2 (input : String) : Option Nat :=
  let p := parse_input input
  let ranges := chunkPairs p.1
  let final := p.2.foldl (fun rs c => rs.flatMap fun r => c.translate_range r) ranges
  (final.map URange.start).min?

/-- `solve2b(input)` (part 2, Strategy B′): compose all maps into one, then
query.  The source also calls `detect_overlaps` after each `add_map`, which
only panics and returns no value; on the inputs evaluated below it does not
panic (checked separately), so it is omitted from the value-level model. -/
def solve2b (input : String) : Option Nat :=
  let p := parse_input input
  let ranges := chunkPairs p.1
  let basemap := p.2.foldl (fun bm c => Map.add_map bm c) (⟨[]⟩ : Map)
  basemap.lowest_in_ranges ranges

/-! ### Invariant predicates (the spec's §3 data-model invariants). -/

/-- The source intervals of two Translations are disjoint (half-open). -/
def sdisj (p q : Translation) : Prop :=
  p.src + p.rng ≤ q.src ∨ q.src + q.rng ≤ p.src

instance (p q : Translation) : Decidable (sdisj p q) :=
  inferInstanceAs (Decidable (_ ∨ _))

/-- `p`'s destination interval is disjoint from `b`'s source interval. -/
def ddisj (p b : Translation) : Prop :=
  p.dst + p.rng ≤ b.src ∨ b.src + b.rng ≤ p.dst

/-- `p`'s source interval lies inside `a`'s source interval. -/
def within (p a : Translation) : Prop :=
  a.src ≤ p.src ∧ p.src + p.rng ≤ a.src + a.rng

/-- `p` is a sub-translation of `a`: source inside `a`'s source, same
offset (`p.dst - p.src = a.dst - a.src`, written additively). -/
def subtr (p a : Translation) : Prop :=
  within p a ∧ p.dst + a.src = a.dst + p.src

/-- `p` is a shifted piece produced from `a` and `b`: its source lies
inside `a`'s source, and its image under `a`'s offset (`x ↦ x - a.src + a.dst`)
lies inside `b`'s source interval (written additively to stay in `Nat`). -/
def shiftspec (p a b : Translation) : Prop :=
  within p a ∧ b.src + a.src ≤ p.src + a.dst ∧
    p.src + p.rng + a.dst ≤ b.src + b.rng + a.src

/-- The spec's Map invariant (§3): every Translation has `rng > 0` and the
source intervals of distinct Translations are pairwise disjoint. -/
def Map.WF (m : Map) : Prop :=
  (∀ t ∈ m.translations, 0 < t.rng) ∧ m.translations.Pairwise sdisj

instance (m : Map) : Decidable (Map.WF m) :=
  inferInstanceAs (Decidable (_ ∧ _))

/-- The published example input of the puzzle (the `test_solve`/`test_solve2`
input in the source). -/
def exampleInput : String :=
  "seeds: 79 14 55 13\n\nseed-to-soil map:\n50 98 2\n52 50 48\n\nsoil-to-fertilizer map:\n0 15 37\n37 52 2\n39 0 15\n\nfertilizer-to-water map:\n49 53 8\n0 11 42\n42 0 7\n57 7 4\n\nwater-to-light map:\n88 18 7\n18 25 70\n\nlight-to-temperature map:\n45 77 23\n81 45 19\n68 64 13\n\ntemperature-to-humidity map:\n0 69 1\n1 0 69\n\nhumidity-to-location map:\n60 56 37\n56 93 4"

/-- A small valid input on which the two part-2 strategies disagree: one
seed interval `[10, 12)`, a first stage `[10, 20) → [50, 60)` and a second
stage `[60, 70) → [0, 10)` whose source abuts the first stage's
destination interval exactly at `60`. -/
def abutInput : String :=
  "seeds: 10 2\n\na map:\n50 10 10\n\nb map:\n0 60 10"

/-! ### General lemmas. -/

/-- The five case conditions of `Translation::translate_range` cover every
configuration, so the source's `panic!("translate_range: unhandled case")`
(the final `else` of the Lean model) is unreachable. -/
theorem translate_range_total (t : Translation) (r : URange) :
    (t.start ≥ r.start ∧ t.stop ≤ r.stop) ∨
    (r.start ≥ t.start ∧ r.stop ≤ t.stop) ∨
    (r.start < t.start ∧ r.stop > t.start ∧ r.stop < t.stop) ∨
    (r.start ≥ t.start ∧ r.start ≤ t.stop ∧ r.stop > t.stop) ∨
    (t.stop ≤ r.start ∨ t.start ≥ r.stop) := by
  simp only [Translation.start, Translation.stop]
  omega

/-- Each `Translation::translate_range` call returns at least one piece. -/
theorem tr_pieces_ne (t : Translation) (r : URange) :
    (t.translate_range r).1 ++ (t.translate_range r).2 ≠ [] := by
  unfold Translation.translate_range
  split_ifs <;> simp

theorem mapTRstep_ne (t : Translation) (acc : List URange × List URange)
    (h : acc.1 ++ acc.2 ≠ []) :
    (mapTRstep t acc).1 ++ (mapTRstep t acc).2 ≠ [] := by
  rcases acc with ⟨o, rem⟩
  rcases o with _ | ⟨a, o'⟩
  · rcases rem with _ | ⟨x, rem'⟩
    · simp at h
    · intro heq
      rw [List.append_eq_nil] at heq
      simp only [mapTRstep, List.map_cons, List.flatten_cons, List.nil_append,
        List.append_eq_nil] at heq
      exact tr_pieces_ne t x (by simp [heq.1.1, heq.2.1])
  · simp [mapTRstep]

theorem foldl_mapTRstep_ne (ts : List Translation) :
    ∀ acc : List URange × List URange, acc.1 ++ acc.2 ≠ [] →
      (ts.foldl (fun acc t => mapTRstep t acc) acc).1 ++
        (ts.foldl (fun acc t => mapTRstep t acc) acc).2 ≠ [] := by
  induction ts with
  | nil => intro acc h; simpa using h
  | cons t ts ih =>
    intro acc h
    simpa using ih (mapTRstep t acc) (mapTRstep_ne t acc h)

theorem simplify_go_ne (l : List URange) : ∀ c, simplify_go c l ≠ [] := by
  induction l with
  | nil => intro c; simp [simplify_go]
  | cons r rs ih =>
    intro c
    simp only [simplify_go]
    split_ifs <;> simp [ih]

theorem insertByStart_length (x : URange) (l : List URange) :
    (insertByStart x l).length = l.length + 1 := by
  induction l with
  | nil => simp [insertByStart]
  | cons y ys ih =>
    simp only [insertByStart]
    split_ifs <;> simp [ih]

theorem sortByStart_length (l : List URange) :
    (sortByStart l).length = l.length := by
  induction l with
  | nil => simp [sortByStart]
  | cons x xs ih => simp [sortByStart, insertByStart_length, ih]

theorem simplify_ranges_ne (l : List URange) (h : l ≠ []) :
    Map.simplify_ranges l ≠ [] := by
  unfold Map.simplify_ranges
  split_ifs with h1
  · exact h
  · have hlen : (sortByStart l).length = l.length := sortByStart_length l
    rcases hs : sortByStart l with _ | ⟨c, rest⟩
    · exact absurd (List.length_eq_zero.mp (by rw [← hlen, hs]; rfl)) h
    · exact simplify_go_ne rest c

theorem sdisj_symmetric : Symmetric sdisj := fun _ _ h => h.symm

/-- A Map whose translations all have positive length and pairwise-disjoint
source intervals passes `detect_overlaps`. -/
theorem detect_false_of_pairwise (l : List Translation)
    (hpos : ∀ t ∈ l, 0 < t.rng) (hpw : l.Pairwise sdisj) :
    Map.detect_overlaps_panics ⟨l⟩ = false := by
  rw [← Bool.not_eq_true]
  simp only [Map.detect_overlaps_panics, Map.range_keys, List.any_eq_true,
    decide_eq_true_eq, not_exists, not_and]
  intro k hk k2 hk2 hne h1 h2
  obtain ⟨t1, ht1, rfl⟩ := List.mem_map.mp (List.mem_dedup.mp hk)
  obtain ⟨t2, ht2, rfl⟩ := List.mem_map.mp (List.mem_dedup.mp hk2)
  have hvne : t1 ≠ t2 := by
    intro he; exact hne (by rw [he])
  have hd := List.Pairwise.forall sdisj_symmetric hpw ht1 ht2 hvne
  have p1 := hpos t1 ht1
  have p2 := hpos t2 ht2
  simp only [Translation.range] at h1 h2
  rcases hd with hd | hd <;> omega

/-! ### Claim theorems. -/

/-- C10 (confirmed): for every Map `m` and every half-open interval `r`
(empty intervals included), the output-plus-remainder list accumulated by
`Map::translate_range` before the final fallback is nonempty — so the
fallback branch that pushes `r` when the output is empty is unreachable —
and the final simplified result is a nonempty list. -/
theorem C10_translate_range_nonempty (m : Map) (r : URange) :
    (m.translate_range_raw r).1 ++ (m.translate_range_raw r).2 ≠ [] ∧
    m.translate_range r ≠ [] := by
  have hraw : (m.translate_range_raw r).1 ++ (m.translate_range_raw r).2 ≠ [] := by
    unfold Map.translate_range_raw
    exact foldl_mapTRstep_ne m.translations ([], [r]) (by simp)
  refine ⟨hraw, ?_⟩
  unfold Map.translate_range
  have hfalse : ((m.translate_range_raw r).1 ++ (m.translate_range_raw r).2).isEmpty = false := by
    rcases hcase : (m.translate_range_raw r).1 ++ (m.translate_range_raw r).2 with _ | ⟨x, xs⟩
    · exact absurd hcase hraw
    · rfl
  simp only [hfalse, Bool.false_eq_true, if_false]
  exact simplify_ranges_ne _ hraw

/-- C9 (corrected, amended claim): `detect_overlaps` panics exactly when the
Map contains two Translations with *distinct* source ranges that share an
integer (for Maps whose translations all have positive length).  Two
distinct Translations with *identical* source intervals collapse to one key
of the `range_map` HashMap and are not detected. -/
theorem C9_amended (m : Map) (hpos : ∀ t ∈ m.translations, 0 < t.rng) :
    Map.detect_overlaps_panics m = true ↔
      ∃ t1 ∈ m.translations, ∃ t2 ∈ m.translations,
        Translation.range t1 ≠ Translation.range t2 ∧
        ∃ v, (Translation.range t1).contains v ∧ (Translation.range t2).contains v := by
  constructor
  · intro h
    simp only [Map.detect_overlaps_panics, Map.range_keys, List.any_eq_true,
      decide_eq_true_eq] at h
    obtain ⟨k, hk, k2, hk2, hne, h1, h2⟩ := h
    obtain ⟨t1, ht1, rfl⟩ := List.mem_map.mp (List.mem_dedup.mp hk)
    obtain ⟨t2, ht2, rfl⟩ := List.mem_map.mp (List.mem_dedup.mp hk2)
    have p1 := hpos t1 ht1
    have p2 := hpos t2 ht2
    simp only [Translation.range] at h1 h2
    refine ⟨t1, ht1, t2, ht2, hne, max t1.src t2.src, ?_, ?_⟩ <;>
      simp only [URange.contains, Translation.range] <;> constructor <;> omega
  · rintro ⟨t1, ht1, t2, ht2, hne, v, hv1, hv2⟩
    simp only [Map.detect_overlaps_panics, Map.range_keys, List.any_eq_true,
      decide_eq_true_eq]
    refine ⟨t1.range, List.mem_dedup.mpr (List.mem_map_of_mem _ ht1),
      t2.range, List.mem_dedup.mpr (List.mem_map_of_mem _ ht2), hne, ?_, ?_⟩ <;>
      simp only [URange.contains, Translation.range] at hv1 hv2 ⊢ <;> omega

/-- C9 witness: a Map with two Translations whose distinct source intervals
`[5, 10)` and `[8, 12)` share the integer 8 makes `detect_overlaps` panic. -/
theorem C9_witness :
    Map.detect_overlaps_panics ⟨[⟨5, 10, 5⟩, ⟨8, 0, 4⟩]⟩ = true :=
  (C9_amended ⟨[⟨5, 10, 5⟩, ⟨8, 0, 4⟩]⟩ (by decide)).mpr
    ⟨⟨5, 10, 5⟩, by decide, ⟨8, 0, 4⟩, by decide, by decide, 8, by decide, by decide⟩

/-- C9 counterexample: two *distinct* Translations with exactly identical
source intervals `[5, 10)` (they share the integer 5, so the claim demands
a panic), yet `detect_overlaps` does not panic: the `range_map` HashMap
keyed by the source range collapses them into one entry. -/
theorem C9_counterexample :
    Map.detect_overlaps_panics ⟨[⟨5, 10, 5⟩, ⟨5, 20, 5⟩]⟩ = false ∧
    (⟨5, 10, 5⟩ : Translation) ≠ ⟨5, 20, 5⟩ ∧
    (Translation.range ⟨5, 10, 5⟩).contains 5 ∧
    (Translation.range ⟨5, 20, 5⟩).contains 5 := by
  decide

/-- C3 (code bug): for `a = {src 10, dst 50, rng 10}` and
`b = {src 5, dst 70, rng 5}` the source intervals abut exactly
(`b.end() = 10 = a.start()`), so the claim demands `{a}`; the code's
strict comparison `b.end() < a.start()` misses the abutting case, every
other branch guard also fails, and the function returns the empty list,
silently deleting `a`. -/
theorem C3_code_bug_eval :
    Translation.stop ⟨5, 70, 5⟩ = Translation.start ⟨10, 50, 10⟩ ∧
    trans_sub_src ⟨10, 50, 10⟩ ⟨5, 70, 5⟩ = [] := by
  decide

/-- C4 (code bug): for `a = {src 10, dst 50, rng 10}` (destination interval
`[50, 60)`) and `b = {src 60, dst 0, rng 5}` the intervals abut exactly
(`b.start() = 60 = a.out_end()`), so the claim demands `{a}`; the code's
strict comparison `b.start() > ao.end` misses the abutting case and the
function returns the empty list. -/
theorem C4_code_bug_eval :
    Translation.start ⟨60, 0, 5⟩ = (Translation.out_range ⟨10, 50, 10⟩).stop ∧
    trans_sub_dst ⟨10, 50, 10⟩ ⟨60, 0, 5⟩ = [] := by
  decide

/-- C5 (code bug): for `t = {src 0, dst 100, rng 5}` and `r = [5, 8)` the
intervals abut exactly (`t.end() = 5 = r.start`), so the claim demands
`(∅, {r})`; case 3b's guard `r.start <= self.end()` (non-strict) captures
the abutting input first and the code returns the empty interval `[5, 5)`
in the `translated` component. -/
theorem C5_code_bug_eval :
    Translation.stop ⟨0, 100, 5⟩ = (URange.mk 5 8).start ∧
    Translation.translate_range ⟨0, 100, 5⟩ ⟨5, 8⟩ = ([⟨5, 5⟩], [⟨5, 8⟩]) := by
  decide

/-- C2 (code bug): the Map `{[0,5) → [100,105)}` satisfies the disjointness
invariant, `r = [5, 8)` is nonempty and contains `v = 6`, and
`m.translate(6) = 6`; but `m.translate_range(r)` evaluates to the single
empty interval `[5, 5)` (via the case-3b slip and the `simplify_ranges`
containment slip), so *no* output interval contains `m.translate(v)` — the
existence half of "exactly one" fails. -/
theorem C2_code_bug_eval :
    Map.WF ⟨[⟨0, 100, 5⟩]⟩ ∧
    (URange.mk 5 8).contains 6 ∧
    Map.translate ⟨[⟨0, 100, 5⟩]⟩ 6 = 6 ∧
    Map.translate_range ⟨[⟨0, 100, 5⟩]⟩ ⟨5, 8⟩ = [⟨5, 5⟩] ∧
    ¬ ∃ o ∈ Map.translate_range ⟨[⟨0, 100, 5⟩]⟩ ⟨5, 8⟩,
        o.contains (Map.translate ⟨[⟨0, 100, 5⟩]⟩ 6) := by
  decide

/-- C6 (code bug): same Map and interval as `C2_code_bug_eval`: the total
length of the intervals returned by `translate_range` is 0, while the input
interval `[5, 8)` has length 3 — measure is not conserved. -/
theorem C6_code_bug_eval :
    Map.WF ⟨[⟨0, 100, 5⟩]⟩ ∧
    sumLen (Map.translate_range ⟨[⟨0, 100, 5⟩]⟩ ⟨5, 8⟩) = 0 ∧
    URange.len ⟨5, 8⟩ = 3 := by
  decide

/-- C7 (code bug): `simplify_ranges([[0,10), [2,5)])` returns `[[0,5)]`:
when the next range overlaps the current one the code sets
`current = current.start..r.end`, *truncating* `[0,10)` to `[0,5)` instead
of merging, so the covered point 7 of the input union is lost. -/
theorem C7_code_bug_eval :
    Map.simplify_ranges [⟨0, 10⟩, ⟨2, 5⟩] = [⟨0, 5⟩] ∧
    (URange.mk 0 10).contains 7 ∧
    ¬ ∃ o ∈ Map.simplify_ranges [⟨0, 10⟩, ⟨2, 5⟩], o.contains 7 := by
  decide

/-- C1 counterexample: a valid input (well-formed seeds line and map
paragraphs) on which the two part-2 strategies disagree: the interval walk
returns 50 while compose-then-query returns 10, because `add_map` drops the
first stage's translation when the second stage's source interval abuts its
destination interval exactly. -/
theorem C1_counterexample :
    solve2 abutInput = some 50 ∧ solve2b abutInput = some 10 ∧
    solve2 abutInput ≠ solve2b abutInput := by
  decide

set_option maxRecDepth 100000 in
/-- C1 (corrected, amended claim): on the published example input both
strategies return 46; the universal agreement claim does not hold on all
valid inputs. -/
theorem C1_amended :
    solve2 exampleInput = some 46 ∧ solve2b exampleInput = some 46 := by
  decide

/-! ### Lemmas about the interval algebra, towards C8. -/

theorem sub_src_within (a b p : Translation) (hp : p ∈ trans_sub_src a b) :
    within p a := by
  unfold trans_sub_src at hp
  simp only [Translation.start, Translation.stop] at hp
  split_ifs at hp <;>
    simp only [List.mem_append, List.mem_singleton, List.mem_cons,
      List.not_mem_nil, or_false, false_or] at hp <;>
    first
      | (exfalso; omega)
      | (rcases hp with rfl | rfl <;>
          simp only [within, Translation.snip_left, Translation.snip_right] <;>
          omega)

theorem sub_src_pos (a b p : Translation) (ha : 0 < a.rng)
    (hp : p ∈ trans_sub_src a b) : 0 < p.rng := by
  unfold trans_sub_src at hp
  simp only [Translation.start, Translation.stop] at hp
  split_ifs at hp <;>
    simp only [List.mem_append, List.mem_singleton, List.mem_cons,
      List.not_mem_nil, or_false, false_or] at hp <;>
    first
      | (exfalso; omega)
      | (rcases hp with rfl | rfl <;>
          (try simp only [Translation.snip_left, Translation.snip_right]) <;>
          omega)

theorem sub_src_avoid (a b p : Translation) (hp : p ∈ trans_sub_src a b) :
    sdisj p b := by
  unfold trans_sub_src at hp
  simp only [Translation.start, Translation.stop] at hp
  split_ifs at hp <;>
    simp only [List.mem_append, List.mem_singleton, List.mem_cons,
      List.not_mem_nil, or_false, false_or] at hp <;>
    first
      | (exfalso; omega)
      | (rcases hp with rfl | rfl <;>
          simp only [sdisj, Translation.snip_left, Translation.snip_right] <;>
          omega)

theorem pairwise_one {R : Translation → Translation → Prop} (x : Translation) :
    List.Pairwise R [x] :=
  List.Pairwise.cons (fun z hz => absurd hz (List.not_mem_nil z)) List.Pairwise.nil

theorem pairwise_two {R : Translation → Translation → Prop} (x y : Translation)
    (h : R x y) : List.Pairwise R [x, y] := by
  refine List.Pairwise.cons ?_ (pairwise_one y)
  intro z hz
  rcases List.mem_singleton.mp hz with rfl
  exact h

theorem sub_src_pw (a b : Translation) : (trans_sub_src a b).Pairwise sdisj := by
  unfold trans_sub_src
  simp only [Translation.start, Translation.stop]
  split_ifs <;> try simp only [List.nil_append, List.append_nil]
  all_goals
    first
      | (exfalso; omega)
      | exact List.Pairwise.nil
      | exact pairwise_one _
      | (apply pairwise_two
         simp only [sdisj, Translation.snip_left, Translation.snip_right]
         omega)

theorem sub_dst_pos (a b p : Translation) (ha : 0 < a.rng)
    (hp : p ∈ trans_sub_dst a b) : 0 < p.rng := by
  unfold trans_sub_dst at hp
  simp only [Translation.start, Translation.stop, Translation.out_range] at hp
  split_ifs at hp <;>
    simp only [List.mem_append, List.mem_singleton, List.mem_cons,
      List.not_mem_nil, or_false, false_or] at hp <;>
    first
      | (exfalso; omega)
      | (rcases hp with rfl | rfl <;>
          (try simp only [Translation.snip_left, Translation.snip_right]) <;>
          omega)

theorem sub_dst_subtr (a b p : Translation) (hp : p ∈ trans_sub_dst a b) :
    subtr p a := by
  unfold trans_sub_dst at hp
  simp only [Translation.start, Translation.stop, Translation.out_range] at hp
  split_ifs at hp <;>
    simp only [List.mem_append, List.mem_singleton, List.mem_cons,
      List.not_mem_nil, or_false, false_or] at hp <;>
    first
      | (exfalso; omega)
      | (rcases hp with rfl | rfl <;>
          simp only [subtr, within, Translation.snip_left, Translation.snip_right,
            and_true, true_and] <;>
          first
            | trivial
            | omega)

theorem sub_dst_avoid (a b p : Translation) (hp : p ∈ trans_sub_dst a b) :
    ddisj p b := by
  unfold trans_sub_dst at hp
  simp only [Translation.start, Translation.stop, Translation.out_range] at hp
  split_ifs at hp <;>
    simp only [List.mem_append, List.mem_singleton, List.mem_cons,
      List.not_mem_nil, or_false, false_or] at hp <;>
    first
      | (exfalso; omega)
      | (rcases hp with rfl | rfl <;>
          simp only [ddisj, Translation.snip_left, Translation.snip_right] <;>
          omega)

theorem sub_dst_pw (a b : Translation) : (trans_sub_dst a b).Pairwise sdisj := by
  unfold trans_sub_dst
  simp only [Translation.start, Translation.stop, Translation.out_range]
  split_ifs <;> try simp only [List.nil_append, List.append_nil]
  all_goals
    first
      | (exfalso; omega)
      | exact List.Pairwise.nil
      | exact pairwise_one _
      | (apply pairwise_two
         simp only [sdisj, Translation.snip_left, Translation.snip_right]
         omega)

theorem shift_pos (a b p : Translation) (ha : 0 < a.rng) (hb : 0 < b.rng)
    (hp : p ∈ trans_shift_overlaps a b) : 0 < p.rng := by
  unfold trans_shift_overlaps at hp
  simp only [Translation.start, Translation.stop, Translation.out_range] at hp
  split_ifs at hp <;>
    simp only [List.mem_append, List.mem_singleton, List.mem_cons,
      List.not_mem_nil, or_false, false_or] at hp <;>
    first
      | (exfalso; omega)
      | (rcases hp with rfl | rfl <;>
          (try simp only [Translation.snip_left, Translation.snip_right]) <;>
          omega)

theorem shift_spec (a b p : Translation) (ha : 0 < a.rng) (hb : 0 < b.rng)
    (hp : p ∈ trans_shift_overlaps a b) : shiftspec p a b := by
  unfold trans_shift_overlaps at hp
  simp only [Translation.start, Translation.stop, Translation.out_range] at hp
  split_ifs at hp <;>
    simp only [List.mem_append, List.mem_singleton, List.mem_cons,
      List.not_mem_nil, or_false, false_or] at hp <;>
    first
      | (exfalso; omega)
      | (rcases hp with rfl | rfl <;>
          simp only [shiftspec, within, Translation.snip_left,
            Translation.snip_right, and_true, true_and] <;>
          first
            | trivial
            | omega)

theorem shift_le_one (a b : Translation) :
    (trans_shift_overlaps a b).length ≤ 1 := by
  unfold trans_shift_overlaps
  simp only [Translation.start, Translation.stop, Translation.out_range]
  split_ifs <;> try simp only [List.nil_append, List.append_nil]
  all_goals
    first
      | (exfalso; omega)
      | simp

theorem within_refl (p : Translation) : within p p := by
  simp only [within]; omega

theorem within_trans (p q a : Translation) (h1 : within p q) (h2 : within q a) :
    within p a := by
  simp only [within] at *; omega

theorem subtr_refl (p : Translation) : subtr p p :=
  ⟨within_refl p, rfl⟩

theorem subtr_trans (p q a : Translation) (h1 : subtr p q) (h2 : subtr q a) :
    subtr p a := by
  simp only [subtr, within] at *; omega

theorem sdisj_of_within (p a q b : Translation) (hp : within p a)
    (hq : within q b) (hab : sdisj a b) : sdisj p q := by
  simp only [within, sdisj] at *; omega

theorem sdisj_within_left (p o bt : Translation) (hw : within p o)
    (hd : sdisj o bt) : sdisj p bt := by
  simp only [within, sdisj] at *; omega

theorem sdisj_within_right (p q o : Translation) (hq : within q o)
    (hd : sdisj p o) : sdisj p q := by
  simp only [within, sdisj] at *; omega

theorem ddisj_of_subtr (p q b : Translation) (hs : subtr p q)
    (hd : ddisj q b) : ddisj p b := by
  simp only [subtr, within, ddisj] at *; omega

theorem adapted_vs_shifted (p q a b : Translation) (hq : subtr q a)
    (hd : ddisj q b) (hp : shiftspec p a b) : sdisj p q := by
  simp only [subtr, within, ddisj, shiftspec, sdisj] at *; omega

theorem shifted_same_a (p q a b b' : Translation) (hp : shiftspec p a b)
    (hq : shiftspec q a b') (hbb : sdisj b b') : sdisj p q := by
  simp only [shiftspec, within, sdisj] at *; omega

theorem shiftspec_within (p a b : Translation) (h : shiftspec p a b) :
    within p a := h.1

theorem pairwise_flatMap {α β : Type} {R : β → β → Prop} {S : α → α → Prop}
    (f : α → List β) (l : List α) (hl : l.Pairwise S)
    (hf : ∀ x ∈ l, (f x).Pairwise R)
    (hc : ∀ x ∈ l, ∀ y ∈ l, S x y → ∀ p ∈ f x, ∀ q ∈ f y, R p q) :
    (l.flatMap f).Pairwise R := by
  induction l with
  | nil => simp
  | cons a l ih =>
    rw [List.flatMap_cons]
    refine List.pairwise_append.mpr ⟨hf a (List.mem_cons_self a l), ?_, ?_⟩
    · refine ih (List.pairwise_cons.mp hl).2 (fun x hx => hf x (List.mem_cons_of_mem a hx)) ?_
      intro x hx y hy hs p hp q hq
      exact hc x (List.mem_cons_of_mem a hx) y (List.mem_cons_of_mem a hy) hs p hp q hq
    · intro p hp q hq
      obtain ⟨y, hy, hqy⟩ := List.mem_flatMap.mp hq
      exact hc a (List.mem_cons_self a l) y (List.mem_cons_of_mem a hy)
        ((List.pairwise_cons.mp hl).1 y hy) p hp q hqy

theorem pairwise_of_length_le_one {R : Translation → Translation → Prop}
    (l : List Translation) (h : l.length ≤ 1) : l.Pairwise R := by
  match l, h with
  | [], _ => exact List.Pairwise.nil
  | [x], _ => exact pairwise_one x

theorem vec_sub_src_spec (bs : List Translation) :
    ∀ l : List Translation, (∀ p ∈ l, 0 < p.rng) → l.Pairwise sdisj →
      (∀ p ∈ trans_vec_sub_src l bs, 0 < p.rng) ∧
      (trans_vec_sub_src l bs).Pairwise sdisj ∧
      (∀ p ∈ trans_vec_sub_src l bs, ∃ o ∈ l, within p o) ∧
      (∀ bt ∈ bs, ∀ p ∈ trans_vec_sub_src l bs, sdisj p bt) := by
  induction bs with
  | nil =>
    intro l hpos hpw
    simp only [trans_vec_sub_src, List.foldl_nil]
    exact ⟨hpos, hpw, fun p hp => ⟨p, hp, within_refl p⟩, by simp⟩
  | cons bt bs ih =>
    intro l hpos hpw
    have hstep : trans_vec_sub_src l (bt :: bs) =
        trans_vec_sub_src (l.flatMap fun ot => trans_sub_src ot bt) bs := by
      simp [trans_vec_sub_src]
    have hpos' : ∀ p ∈ l.flatMap (fun ot => trans_sub_src ot bt), 0 < p.rng := by
      intro p hp
      obtain ⟨ot, hot, hpo⟩ := List.mem_flatMap.mp hp
      exact sub_src_pos ot bt p (hpos ot hot) hpo
    have horig' : ∀ p ∈ l.flatMap (fun ot => trans_sub_src ot bt), ∃ o ∈ l, within p o := by
      intro p hp
      obtain ⟨ot, hot, hpo⟩ := List.mem_flatMap.mp hp
      exact ⟨ot, hot, sub_src_within ot bt p hpo⟩
    have havoid' : ∀ p ∈ l.flatMap (fun ot => trans_sub_src ot bt), sdisj p bt := by
      intro p hp
      obtain ⟨ot, hot, hpo⟩ := List.mem_flatMap.mp hp
      exact sub_src_avoid ot bt p hpo
    have hpw' : (l.flatMap fun ot => trans_sub_src ot bt).Pairwise sdisj := by
      refine pairwise_flatMap _ l hpw (fun x hx => sub_src_pw x bt) ?_
      intro x hx y hy hs p hp q hq
      exact sdisj_of_within p x q y (sub_src_within x bt p hp)
        (sub_src_within y bt q hq) hs
    obtain ⟨ihpos, ihpw, ihorig, ihavoid⟩ := ih _ hpos' hpw'
    rw [hstep]
    refine ⟨ihpos, ihpw, ?_, ?_⟩
    · intro p hp
      obtain ⟨o', ho', hw⟩ := ihorig p hp
      obtain ⟨o, ho, hw2⟩ := horig' o' ho'
      exact ⟨o, ho, within_trans p o' o hw hw2⟩
    · intro bt' hbt' p hp
      rcases List.mem_cons.mp hbt' with rfl | hbt'
      · obtain ⟨o', ho', hw⟩ := ihorig p hp
        exact sdisj_within_left p o' bt' hw (havoid' o' ho')
      · exact ihavoid bt' hbt' p hp

theorem vec_sub_dst_spec (bs : List Translation) :
    ∀ l : List Translation, (∀ p ∈ l, 0 < p.rng) → l.Pairwise sdisj →
      (∀ p ∈ trans_vec_sub_dst l bs, 0 < p.rng) ∧
      (trans_vec_sub_dst l bs).Pairwise sdisj ∧
      (∀ p ∈ trans_vec_sub_dst l bs, ∃ o ∈ l, subtr p o) ∧
      (∀ bt ∈ bs, ∀ p ∈ trans_vec_sub_dst l bs, ddisj p bt) := by
  induction bs with
  | nil =>
    intro l hpos hpw
    simp only [trans_vec_sub_dst, List.foldl_nil]
    exact ⟨hpos, hpw, fun p hp => ⟨p, hp, subtr_refl p⟩, by simp⟩
  | cons bt bs ih =>
    intro l hpos hpw
    have hstep : trans_vec_sub_dst l (bt :: bs) =
        trans_vec_sub_dst (l.flatMap fun ot => trans_sub_dst ot bt) bs := by
      simp [trans_vec_sub_dst]
    have hpos' : ∀ p ∈ l.flatMap (fun ot => trans_sub_dst ot bt), 0 < p.rng := by
      intro p hp
      obtain ⟨ot, hot, hpo⟩ := List.mem_flatMap.mp hp
      exact sub_dst_pos ot bt p (hpos ot hot) hpo
    have horig' : ∀ p ∈ l.flatMap (fun ot => trans_sub_dst ot bt), ∃ o ∈ l, subtr p o := by
      intro p hp
      obtain ⟨ot, hot, hpo⟩ := List.mem_flatMap.mp hp
      exact ⟨ot, hot, sub_dst_subtr ot bt p hpo⟩
    have havoid' : ∀ p ∈ l.flatMap (fun ot => trans_sub_dst ot bt), ddisj p bt := by
      intro p hp
      obtain ⟨ot, hot, hpo⟩ := List.mem_flatMap.mp hp
      exact sub_dst_avoid ot bt p hpo
    have hpw' : (l.flatMap fun ot => trans_sub_dst ot bt).Pairwise sdisj := by
      refine pairwise_flatMap _ l hpw (fun x hx => sub_dst_pw x bt) ?_
      intro x hx y hy hs p hp q hq
      exact sdisj_of_within p x q y (sub_dst_subtr x bt p hp).1
        (sub_dst_subtr y bt q hq).1 hs
    obtain ⟨ihpos, ihpw, ihorig, ihavoid⟩ := ih _ hpos' hpw'
    rw [hstep]
    refine ⟨ihpos, ihpw, ?_, ?_⟩
    · intro p hp
      obtain ⟨o', ho', hw⟩ := ihorig p hp
      obtain ⟨o, ho, hw2⟩ := horig' o' ho'
      exact ⟨o, ho, subtr_trans p o' o hw hw2⟩
    · intro bt' hbt' p hp
      rcases List.mem_cons.mp hbt' with rfl | hbt'
      · obtain ⟨o', ho', hw⟩ := ihorig p hp
        exact ddisj_of_subtr p o' bt' hw (havoid' o' ho')
      · exact ihavoid bt' hbt' p hp

theorem vec_shift_spec (ml ts : List Translation)
    (hapos : ∀ t ∈ ml, 0 < t.rng) (hbpos : ∀ t ∈ ts, 0 < t.rng)
    (hapw : ml.Pairwise sdisj) (hbpw : ts.Pairwise sdisj) :
    (∀ p ∈ trans_vec_shift_overlaps ml ts, 0 < p.rng) ∧
    (trans_vec_shift_overlaps ml ts).Pairwise sdisj ∧
    (∀ p ∈ trans_vec_shift_overlaps ml ts, ∃ ta ∈ ml, ∃ bt ∈ ts, shiftspec p ta bt) := by
  have hmem : ∀ p ∈ trans_vec_shift_overlaps ml ts,
      ∃ ta ∈ ml, ∃ bt ∈ ts, p ∈ trans_shift_overlaps ta bt := by
    intro p hp
    unfold trans_vec_shift_overlaps at hp
    obtain ⟨bt, hbt, hp2⟩ := List.mem_flatMap.mp hp
    obtain ⟨ta, hta, hp3⟩ := List.mem_flatMap.mp hp2
    exact ⟨ta, hta, bt, hbt, hp3⟩
  refine ⟨?_, ?_, ?_⟩
  · intro p hp
    obtain ⟨ta, hta, bt, hbt, hp3⟩ := hmem p hp
    exact shift_pos ta bt p (hapos ta hta) (hbpos bt hbt) hp3
  · unfold trans_vec_shift_overlaps
    refine pairwise_flatMap _ ts hbpw ?_ ?_
    · intro bt hbt
      refine pairwise_flatMap _ ml hapw
        (fun ta hta => pairwise_of_length_le_one _ (shift_le_one ta bt)) ?_
      intro ta hta ta' hta' hs p hp q hq
      exact sdisj_of_within p ta q ta'
        (shift_spec ta bt p (hapos ta hta) (hbpos bt hbt) hp).1
        (shift_spec ta' bt q (hapos ta' hta') (hbpos bt hbt) hq).1 hs
    · intro bt hbt bt' hbt' hs p hp q hq
      obtain ⟨ta, hta, hp3⟩ := List.mem_flatMap.mp hp
      obtain ⟨ta', hta', hq3⟩ := List.mem_flatMap.mp hq
      have hps := shift_spec ta bt p (hapos ta hta) (hbpos bt hbt) hp3
      have hqs := shift_spec ta' bt' q (hapos ta' hta') (hbpos bt' hbt') hq3
      by_cases hta_eq : ta = ta'
      · subst hta_eq
        exact shifted_same_a p q ta bt bt' hps hqs hs
      · exact sdisj_of_within p ta q ta' hps.1 hqs.1
          (List.Pairwise.forall sdisj_symmetric hapw hta hta' hta_eq)
  · intro p hp
    obtain ⟨ta, hta, bt, hbt, hp3⟩ := hmem p hp
    exact ⟨ta, hta, bt, hbt, shift_spec ta bt p (hapos ta hta) (hbpos bt hbt) hp3⟩

theorem add_adapt_spec (m : Map) (ts : List Translation)
    (hmpos : ∀ t ∈ m.translations, 0 < t.rng) (hmpw : m.translations.Pairwise sdisj)
    (htpos : ∀ t ∈ ts, 0 < t.rng) (htpw : ts.Pairwise sdisj) :
    (∀ p ∈ (m.add_adapt_translations ts).translations, 0 < p.rng) ∧
    (m.add_adapt_translations ts).translations.Pairwise sdisj := by
  obtain ⟨npos, npw, norig, navoid⟩ := vec_sub_src_spec m.translations ts htpos htpw
  obtain ⟨apos, apw, aorig, aavoid⟩ := vec_sub_dst_spec ts m.translations hmpos hmpw
  obtain ⟨spos, spw, sorig⟩ := vec_shift_spec m.translations ts hmpos htpos hmpw htpw
  constructor
  · intro p hp
    simp only [Map.add_adapt_translations, List.mem_append] at hp
    rcases hp with (hp | hp) | hp
    exacts [npos p hp, apos p hp, spos p hp]
  · simp only [Map.add_adapt_translations, List.append_assoc]
    refine List.pairwise_append.mpr ⟨npw, ?_, ?_⟩
    · refine List.pairwise_append.mpr ⟨apw, spw, ?_⟩
      intro q hq p hp
      obtain ⟨o, ho, hsub⟩ := aorig q hq
      obtain ⟨ta, hta, bt, hbt, hspec⟩ := sorig p hp
      by_cases heq : o = ta
      · subst heq
        exact sdisj_symmetric (adapted_vs_shifted p q o bt hsub (aavoid bt hbt q hq) hspec)
      · exact sdisj_of_within q o p ta hsub.1 hspec.1
          (List.Pairwise.forall sdisj_symmetric hmpw ho hta heq)
    · intro p hp q hq
      rcases List.mem_append.mp hq with hq | hq
      · obtain ⟨o, ho, hsub⟩ := aorig q hq
        exact sdisj_within_right p q o hsub.1 (navoid o ho p hp)
      · obtain ⟨ta, hta, bt, hbt, hspec⟩ := sorig q hq
        exact sdisj_within_right p q ta hspec.1 (navoid ta hta p hp)

/-- C8 (confirmed): for every two Maps `a, b` each satisfying the spec's
Map invariant (all translations have positive length, source intervals of
distinct translations pairwise disjoint), the translation list produced by
`a.add_map(b)` — the three phases `new_inputs ++ adapted_existing ++
shifted` — again has pairwise-disjoint source intervals, and
`detect_overlaps` on the composed Map does not panic. -/
theorem C8_add_map_no_overlap (a b : Map) (ha : Map.WF a) (hb : Map.WF b) :
    (Map.add_map a b).translations.Pairwise sdisj ∧
    Map.detect_overlaps_panics (Map.add_map a b) = false := by
  obtain ⟨hpos, hpw⟩ := add_adapt_spec a b.translations ha.1 ha.2 hb.1 hb.2
  exact ⟨hpw, detect_false_of_pairwise (Map.add_map a b).translations hpos hpw⟩

/-- C8 witness: the two concrete Maps of the source's `test_overlap_check2`
(`52 50 48` and `37 52 2`) satisfy the invariant, and composing them yields
a Map on which `detect_overlaps` does not panic. -/
theorem C8_witness :
    Map.detect_overlaps_panics (Map.add_map ⟨[⟨50, 52, 48⟩]⟩ ⟨[⟨52, 37, 2⟩]⟩) = false :=
  (C8_add_map_no_overlap ⟨[⟨50, 52, 48⟩]⟩ ⟨[⟨52, 37, 2⟩]⟩ (by decide) (by decide)).2
